import Mathlib

/-!
Verification of the periodic 1-D advection integrator of the course
notebook `notebooks/advection.py`.

The notebook sets up a periodic grid and an initial profile and then
integrates the advection equation with an explicit
forward-in-time / centered-in-space scheme:

    nsteps = int(time/dt)
    q0 = qinit
    K0 = uvel*dt/(2*dx)
    for it in range(nsteps):
        q1 = q0 - K0*(np.roll(q0,-1) - np.roll(q0,1))
        q0 = q1
        qtrue = np.roll(qinit, int((it+1)*dt*uvel))

Arrays are embedded as lists of rationals (exact arithmetic), with
periodic indexing modulo the array length, mirroring the wraparound of
numpy roll.  The semi-Lagrangian scheme of the homework exercise is not
implemented in the notebook; where a claim needs it, it is modelled from
the spec and marked as such.
-/

namespace Advection

/-- Periodic read of a list: the entry at integer index `j` taken modulo
the length.  `Int.emod` returns a value in `[0, length)` for a positive
modulus, so the lookup is in range for a nonempty list; on the empty list
it falls back to `0`. -/
def cyc (q : List ℚ) (j : ℤ) : ℚ :=
  q.getD (j % (q.length : ℤ)).toNat 0

/-- Embedding of `np.roll(q, s)`: entry `i` of the result is entry
`(i - s) mod len(q)` of `q` (a positive shift rotates to the right). -/
def roll (s : ℤ) (q : List ℚ) : List ℚ :=
  List.ofFn (fun i : Fin q.length => cyc q (((i : ℕ) : ℤ) - s))

/-- Embedding of Python `int(...)` on a real number: truncation toward
zero. -/
def pyInt (x : ℚ) : ℤ :=
  if 0 ≤ x then ⌊x⌋ else ⌈x⌉

/-- The constant `K0 = uvel*dt/(2*dx)` of the notebook. -/
def K0 (u dt dx : ℚ) : ℚ := u * dt / (2 * dx)

/-- One explicit forward-in-time / centered-in-space step, the notebook
line `q1 = q0 - K0*(np.roll(q0,-1) - np.roll(q0,1))` written elementwise:
numpy elementwise arithmetic on equal-length arrays gives
`q1[i] = q0[i] - K0*(q0[(i+1) mod M] - q0[(i-1) mod M])`. -/
def explicitStep (K : ℚ) (q : List ℚ) : List ℚ :=
  List.ofFn (fun i : Fin q.length =>
    cyc q ((i : ℕ) : ℤ) -
      K * (cyc q (((i : ℕ) : ℤ) + 1) - cyc q (((i : ℕ) : ℤ) - 1)))

/-- `n` repetitions of the explicit step (the field update of the
notebook integration loop). -/
def stepN (K : ℚ) : ℕ → List ℚ → List ℚ
  | 0, q => q
  | n + 1, q => explicitStep K (stepN K n q)

/-- The loop state of the notebook integration cell: the current field
`q0`, the freshly computed field `q1`, the rolled reference `qtrue`, and
the initial condition `qinit`. -/
structure AdvState where
  q0 : List ℚ
  q1 : List ℚ
  qtrue : List ℚ
  qinit : List ℚ

/-- State before the loop starts: `q0 = qinit` (the notebook aliases the
initial array; the other fields are first assigned inside the loop and
are initialised here to the only array in scope). -/
def initState (qinit : List ℚ) : AdvState :=
  ⟨qinit, qinit, qinit, qinit⟩

/-- One iteration of the notebook loop body at loop counter `it`:
`q1 = q0 - K0*(np.roll(q0,-1)-np.roll(q0,1)); q0 = q1;
qtrue = np.roll(qinit, int((it+1)*dt*uvel))`. -/
def advBody (u dt dx : ℚ) (it : ℕ) (s : AdvState) : AdvState :=
  { q0 := explicitStep (K0 u dt dx) s.q0
    q1 := explicitStep (K0 u dt dx) s.q0
    qtrue := roll (pyInt (((it : ℚ) + 1) * dt * u)) s.qinit
    qinit := s.qinit }

/-- The notebook loop `for it in range(n)` run for `n` iterations. -/
def advRun (u dt dx : ℚ) (s : AdvState) : ℕ → AdvState
  | 0 => s
  | n + 1 => advBody u dt dx n (advRun u dt dx s n)

/-- The notebook step count `nsteps = int(time/dt)`. -/
def nsteps (T dt : ℚ) : ℤ := pyInt (T / dt)

/-- The whole integration cell: compute `nsteps` and run the loop that
many times from the initial state (`range` of a nonpositive count is
empty, hence `toNat`). -/
def driver (u dt dx T : ℚ) (qinit : List ℚ) : AdvState :=
  advRun u dt dx (initState qinit) (nsteps T dt).toNat

/-- Modelled from the spec: the departure coordinate of grid point `i`
for the semi-Lagrangian scheme of section 4.3, in units of grid cells.
The notebook leaves this scheme as a homework exercise, so it is not in
the source; the spec prescribes the departure point
`x_d = x_i - u*dt` with `x_i = i*dx`, here divided by `dx` to work in
index space. -/
def slDep (u dt dx : ℚ) (i : ℕ) : ℚ :=
  ((i : ℚ) * dx - u * dt) / dx

/-- Modelled from the spec: one semi-Lagrangian step (spec section 4.3).
For each grid point, locate the two grid cells bracketing the departure
point (periodic wraparound) and linearly interpolate between them with
weight `frac = (x_d - x_left)/dx`, which in index space is the
fractional part of the departure coordinate. -/
def slStep (u dt dx : ℚ) (q : List ℚ) : List ℚ :=
  List.ofFn (fun i : Fin q.length =>
    (1 - Int.fract (slDep u dt dx i)) * cyc q ⌊slDep u dt dx i⌋ +
      Int.fract (slDep u dt dx i) * cyc q (⌊slDep u dt dx i⌋ + 1))

/-- `n` repetitions of the semi-Lagrangian step. -/
def slStepN (u dt dx : ℚ) : ℕ → List ℚ → List ℚ
  | 0, q => q
  | n + 1, q => slStep u dt dx (slStepN u dt dx n q)

/-- The field is bounded by `B` in absolute value at every grid point. -/
def boundedBy (B : ℚ) (q : List ℚ) : Prop :=
  ∀ x ∈ q, |x| ≤ B

/-- Sum of squares of the field, the divergence measure used for the
stability claims. -/
def sumSq (q : List ℚ) : ℚ :=
  (q.map (fun x => x * x)).sum

/-- Auxiliary two-mode recursion: the explicit step with `K = 1` acts on
fields of the shape `[a, b, -a, -b]` (on a 4-point grid) as the spiral
`(a, b) ↦ (a - 2b, b + 2a)`. -/
def ab : ℕ → ℚ × ℚ
  | 0 => (1, 0)
  | n + 1 => ((ab n).1 - 2 * (ab n).2, (ab n).2 + 2 * (ab n).1)

theorem length_roll (s : ℤ) (q : List ℚ) : (roll s q).length = q.length := by
  simp [roll]

theorem length_explicitStep (K : ℚ) (q : List ℚ) :
    (explicitStep K q).length = q.length := by
  simp [explicitStep]

theorem length_slStep (u dt dx : ℚ) (q : List ℚ) :
    (slStep u dt dx q).length = q.length := by
  simp [slStep]

theorem cyc_congr {q : List ℚ} {j jp : ℤ}
    (h : j % (q.length : ℤ) = jp % (q.length : ℤ)) : cyc q j = cyc q jp := by
  simp only [cyc, h]

theorem emod_add_congr {M j jp : ℤ} (h : j % M = jp % M) (t : ℤ) :
    (j + t) % M = (jp + t) % M := by
  rw [Int.add_emod, h, ← Int.add_emod]

theorem cyc_congr_add {q : List ℚ} {j jp : ℤ}
    (h : j % (q.length : ℤ) = jp % (q.length : ℤ)) (t : ℤ) :
    cyc q (j + t) = cyc q (jp + t) :=
  cyc_congr (emod_add_congr h t)

theorem emod_toNat_lt {j : ℤ} {q : List ℚ} (hq : q ≠ []) :
    (j % (q.length : ℤ)).toNat < q.length := by
  have hM : 0 < (q.length : ℤ) := by
    exact_mod_cast List.length_pos.mpr hq
  have h1 : 0 ≤ j % (q.length : ℤ) := Int.emod_nonneg j (by omega)
  have h2 : j % (q.length : ℤ) < (q.length : ℤ) := Int.emod_lt_of_pos j hM
  omega

theorem cyc_of_lt {q : List ℚ} {n : ℕ} (h : n < q.length) :
    cyc q ((n : ℤ)) = q.getD n 0 := by
  have hmod : (n : ℤ) % (q.length : ℤ) = (n : ℤ) :=
    Int.emod_eq_of_lt (Int.ofNat_nonneg n) (by exact_mod_cast h)
  simp [cyc, hmod]

theorem cyc_mem {q : List ℚ} (hq : q ≠ []) (j : ℤ) : cyc q j ∈ q := by
  have hlt := emod_toNat_lt (j := j) hq
  rw [cyc, List.getD_eq_getElem q 0 hlt]
  exact q.getElem_mem hlt

/-- Sections of the embedding are lists built by `List.ofFn` from a
function of the integer index that only depends on the index modulo the
length; this lemma computes their periodic reads. -/
theorem cyc_ofFn (q : List ℚ) (F : ℤ → ℚ)
    (hF : ∀ j jp : ℤ, j % (q.length : ℤ) = jp % (q.length : ℤ) → F j = F jp)
    (hq : q ≠ []) (j : ℤ) :
    cyc (List.ofFn (fun i : Fin q.length => F ((i : ℕ) : ℤ))) j = F j := by
  have hMpos : 0 < q.length := List.length_pos.mpr hq
  have h1 : 0 ≤ j % (q.length : ℤ) := Int.emod_nonneg j (by positivity)
  have h2 : j % (q.length : ℤ) < (q.length : ℤ) :=
    Int.emod_lt_of_pos j (by exact_mod_cast hMpos)
  have hlt : (j % (q.length : ℤ)).toNat < q.length := by omega
  rw [cyc, List.length_ofFn]
  rw [List.getD_eq_getElem _ 0 (by simpa using hlt)]
  rw [List.getElem_ofFn]
  apply hF
  show ((((j % (q.length : ℤ)).toNat : ℕ) : ℤ)) % (q.length : ℤ) = j % (q.length : ℤ)
  rw [Int.toNat_of_nonneg h1, Int.emod_emod_of_dvd j dvd_rfl]

theorem ne_nil_of_length_eq {a : List ℚ} {q : List ℚ}
    (hlen : a.length = q.length) (hq : q ≠ []) : a ≠ [] := by
  intro h
  rw [h] at hlen
  exact hq (List.eq_nil_of_length_eq_zero hlen.symm)

/-- Periodic read of a rolled list. -/
theorem cyc_roll (s : ℤ) (q : List ℚ) (j : ℤ) :
    cyc (roll s q) j = cyc q (j - s) := by
  by_cases hq : q = []
  · subst hq
    simp [cyc, roll]
  · refine cyc_ofFn q (fun t => cyc q (t - s)) ?_ hq j
    intro j jp h
    simpa only [sub_eq_add_neg] using cyc_congr_add h (-s)

/-- Periodic read of the stepped field: the stencil formula holds at
every integer index taken modulo the length. -/
theorem cyc_explicitStep {q : List ℚ} (hq : q ≠ []) (K : ℚ) (j : ℤ) :
    cyc (explicitStep K q) j =
      cyc q j - K * (cyc q (j + 1) - cyc q (j - 1)) := by
  refine cyc_ofFn q
    (fun t => cyc q t - K * (cyc q (t + 1) - cyc q (t - 1))) ?_ hq j
  intro j jp h
  have h0 : cyc q j = cyc q jp := cyc_congr h
  have h1 : cyc q (j + 1) = cyc q (jp + 1) := cyc_congr_add h 1
  have h2 : cyc q (j - 1) = cyc q (jp - 1) := by
    simpa only [sub_eq_add_neg] using cyc_congr_add h (-1)
  simp only []
  rw [h0, h1, h2]

/-- Two lists of equal length with the same periodic reads are equal. -/
theorem ext_cyc {a b : List ℚ} (hlen : a.length = b.length)
    (h : ∀ j : ℤ, cyc a j = cyc b j) : a = b := by
  apply List.ext_getElem hlen
  intro n h1 h2
  have ha : cyc a ((n : ℤ)) = a.getD n 0 := cyc_of_lt h1
  have hb : cyc b ((n : ℤ)) = b.getD n 0 := cyc_of_lt h2
  rw [← List.getD_eq_getElem a 0 h1, ← List.getD_eq_getElem b 0 h2, ← ha, ← hb]
  exact h n

/-- The explicit step commutes with periodic rotation of the field. -/
theorem explicitStep_roll (K : ℚ) (k : ℤ) (q : List ℚ) :
    explicitStep K (roll k q) = roll k (explicitStep K q) := by
  by_cases hq : q = []
  · subst hq
    rfl
  · have hrne : roll k q ≠ [] := ne_nil_of_length_eq (length_roll k q) hq
    have hsne : explicitStep K q ≠ [] :=
      ne_nil_of_length_eq (length_explicitStep K q) hq
    apply ext_cyc
    · rw [length_explicitStep, length_roll, length_roll, length_explicitStep]
    · intro j
      rw [cyc_explicitStep hrne, cyc_roll, cyc_roll, cyc_roll,
        cyc_roll, cyc_explicitStep hq]
      rw [show j + 1 - k = j - k + 1 from by ring,
        show j - 1 - k = j - k - 1 from by ring]

/-- Iterating the explicit step commutes with periodic rotation. -/
theorem stepN_roll (K : ℚ) (k : ℤ) (n : ℕ) (q : List ℚ) :
    stepN K n (roll k q) = roll k (stepN K n q) := by
  induction n with
  | zero => rfl
  | succ n ih => rw [stepN, stepN, ih, explicitStep_roll]

/-- With `K = 0` the explicit step is the identity. -/
theorem explicitStep_zero (q : List ℚ) : explicitStep 0 q = q := by
  by_cases hq : q = []
  · subst hq
    rfl
  · apply ext_cyc (length_explicitStep 0 q)
    intro j
    rw [cyc_explicitStep hq]
    ring

theorem length_stepN (K : ℚ) (n : ℕ) (q : List ℚ) :
    (stepN K n q).length = q.length := by
  induction n with
  | zero => rfl
  | succ n ih => rw [stepN, length_explicitStep, ih]

/-- The numpy roll is an index rotation of the list, hence a permutation
of its entries. -/
theorem roll_eq_rotate (s : ℤ) (q : List ℚ) :
    roll s q = q.rotate (((-s) % (q.length : ℤ)).toNat) := by
  by_cases hq : q = []
  · subst hq
    simp [roll]
  · have hMpos : 0 < q.length := List.length_pos.mpr hq
    apply List.ext_getElem
    · rw [length_roll, List.length_rotate]
    · intro n h1 h2
      rw [List.getElem_rotate]
      simp only [roll, List.getElem_ofFn]
      have hidx : (n + ((-s) % (q.length : ℤ)).toNat) % q.length < q.length :=
        Nat.mod_lt _ hMpos
      have hs : 0 ≤ (-s) % (q.length : ℤ) :=
        Int.emod_nonneg _ (by exact_mod_cast hMpos.ne.symm)
      have hcongr : cyc q (((n : ℕ) : ℤ) - s) =
          cyc q (((((n + ((-s) % (q.length : ℤ)).toNat) % q.length : ℕ)) : ℤ)) := by
        apply cyc_congr
        push_cast
        rw [Int.emod_emod_of_dvd _ dvd_rfl, Int.toNat_of_nonneg hs]
        rw [sub_eq_add_neg, Int.add_emod ((n : ℕ) : ℤ) (-s),
          Int.add_emod ((n : ℕ) : ℤ) ((-s) % (q.length : ℤ)),
          Int.emod_emod_of_dvd (-s) dvd_rfl]
      rw [hcongr, cyc_of_lt hidx, List.getD_eq_getElem q 0 hidx]

/-- Rolling permutes the entries, hence preserves the sum. -/
theorem sum_roll (s : ℤ) (q : List ℚ) : (roll s q).sum = q.sum := by
  rw [roll_eq_rotate]
  exact (List.rotate_perm q _).sum_eq

/-- Summing the periodic reads at a fixed offset over all indices gives
the plain sum of the list. -/
theorem sum_cyc_shift (s : ℤ) (q : List ℚ) :
    (∑ i : Fin q.length, cyc q (((i : ℕ) : ℤ) + s)) = q.sum := by
  have h := sum_roll (-s) q
  rw [roll, List.sum_ofFn] at h
  simpa only [sub_neg_eq_add] using h

/-- The periodic centered differences telescope: one explicit step
conserves the sum of the field. -/
theorem sum_explicitStep (K : ℚ) (q : List ℚ) :
    (explicitStep K q).sum = q.sum := by
  rw [explicitStep, List.sum_ofFn]
  rw [Finset.sum_sub_distrib, ← Finset.mul_sum, Finset.sum_sub_distrib]
  have h0 : (∑ i : Fin q.length, cyc q (((i : ℕ) : ℤ))) = q.sum := by
    simpa using sum_cyc_shift 0 q
  have h1 : (∑ i : Fin q.length, cyc q (((i : ℕ) : ℤ) + 1)) = q.sum :=
    sum_cyc_shift 1 q
  have h2 : (∑ i : Fin q.length, cyc q (((i : ℕ) : ℤ) - 1)) = q.sum := by
    have := sum_cyc_shift (-1) q
    simpa only [sub_eq_add_neg] using this
  rw [h0, h1, h2]
  ring

/-- Iterating the explicit step conserves the sum of the field. -/
theorem sum_stepN (K : ℚ) (n : ℕ) (q : List ℚ) :
    (stepN K n q).sum = q.sum := by
  induction n with
  | zero => rfl
  | succ n ih => rw [stepN, sum_explicitStep, ih]

/-- On grids of fewer than three points the two neighbor rolls coincide,
so the explicit step is the identity. -/
theorem explicitStep_small {q : List ℚ} (h : q.length ≤ 2) (K : ℚ) :
    explicitStep K q = q := by
  match q with
  | [] => rfl
  | [a] =>
    apply ext_cyc (length_explicitStep K [a])
    intro j
    rw [cyc_explicitStep (by simp) K j]
    have e1 : cyc [a] (j + 1) = cyc [a] j := by
      apply cyc_congr
      simp [Int.emod_emod_of_dvd]
    have e2 : cyc [a] (j - 1) = cyc [a] j := by
      apply cyc_congr
      simp
    rw [e1, e2]
    ring
  | [a, b] =>
    apply ext_cyc (length_explicitStep K [a, b])
    intro j
    rw [cyc_explicitStep (by simp) K j]
    have e12 : cyc [a, b] (j + 1) = cyc [a, b] (j - 1) := by
      apply cyc_congr
      have : j + 1 = (j - 1) + 1 * 2 := by ring
      rw [this]
      simp [Int.add_mul_emod_self_left]
    rw [e12]
    ring
  | a :: b :: c :: rest => simp at h

/-- The loop never assigns to `qinit`: its value is the same after any
number of iterations. -/
theorem advRun_qinit (u dt dx : ℚ) (s : AdvState) (n : ℕ) :
    (advRun u dt dx s n).qinit = s.qinit := by
  induction n with
  | zero => rfl
  | succ n ih => rw [advRun, advBody, ih]

/-- After `n` iterations of the loop body, the current field is the
`n`-fold explicit step of the initial field. -/
theorem advRun_q0 (u dt dx : ℚ) (q : List ℚ) (n : ℕ) :
    (advRun u dt dx (initState q) n).q0 = stepN (K0 u dt dx) n q := by
  induction n with
  | zero => rfl
  | succ n ih => rw [advRun, advBody, stepN, ih]

/-- After at least one iteration, `qtrue` holds the initial field rolled
by `int(n*dt*uvel)` cells, `n` the number of completed iterations. -/
theorem advRun_qtrue (u dt dx : ℚ) (q : List ℚ) {n : ℕ} (hn : 1 ≤ n) :
    (advRun u dt dx (initState q) n).qtrue =
      roll (pyInt ((n : ℚ) * dt * u)) q := by
  match n, hn with
  | m + 1, _ =>
    rw [advRun, advBody, advRun_qinit]
    norm_num [initState]

/-- The semi-Lagrangian step is a convex combination of field values at
each point, so a uniform bound on the field is preserved. -/
theorem slStep_boundedBy (u dt dx B : ℚ) (q : List ℚ)
    (hB : boundedBy B q) : boundedBy B (slStep u dt dx q) := by
  intro x hx
  by_cases hq : q = []
  · subst hq
    simp [slStep] at hx
  · rw [slStep, List.mem_ofFn] at hx
    obtain ⟨i, hi⟩ := hx
    rw [← hi]
    set z : ℚ := slDep u dt dx i with hz
    have hf0 : 0 ≤ Int.fract z := Int.fract_nonneg z
    have hf1 : Int.fract z ≤ 1 := le_of_lt (Int.fract_lt_one z)
    have hv : |cyc q ⌊z⌋| ≤ B := hB _ (cyc_mem hq _)
    have hw : |cyc q (⌊z⌋ + 1)| ≤ B := hB _ (cyc_mem hq _)
    have habs : |(1 - Int.fract z) * cyc q ⌊z⌋ +
        Int.fract z * cyc q (⌊z⌋ + 1)| ≤
        (1 - Int.fract z) * |cyc q ⌊z⌋| +
          Int.fract z * |cyc q (⌊z⌋ + 1)| := by
      calc |(1 - Int.fract z) * cyc q ⌊z⌋ + Int.fract z * cyc q (⌊z⌋ + 1)|
          ≤ |(1 - Int.fract z) * cyc q ⌊z⌋| +
            |Int.fract z * cyc q (⌊z⌋ + 1)| := abs_add _ _
        _ = (1 - Int.fract z) * |cyc q ⌊z⌋| +
            Int.fract z * |cyc q (⌊z⌋ + 1)| := by
            rw [abs_mul, abs_mul, abs_of_nonneg (by linarith),
              abs_of_nonneg hf0]
    have h1 : (1 - Int.fract z) * |cyc q ⌊z⌋| ≤ (1 - Int.fract z) * B :=
      mul_le_mul_of_nonneg_left hv (by linarith)
    have h2 : Int.fract z * |cyc q (⌊z⌋ + 1)| ≤ Int.fract z * B :=
      mul_le_mul_of_nonneg_left hw hf0
    calc |(1 - Int.fract z) * cyc q ⌊z⌋ + Int.fract z * cyc q (⌊z⌋ + 1)|
        ≤ (1 - Int.fract z) * |cyc q ⌊z⌋| +
          Int.fract z * |cyc q (⌊z⌋ + 1)| := habs
      _ ≤ (1 - Int.fract z) * B + Int.fract z * B := add_le_add h1 h2
      _ = B := by ring

/-- A uniform bound on the field survives any number of semi-Lagrangian
steps. -/
theorem slStepN_boundedBy (u dt dx B : ℚ) (q : List ℚ) (n : ℕ)
    (hB : boundedBy B q) : boundedBy B (slStepN u dt dx n q) := by
  induction n with
  | zero => exact hB
  | succ n ih => exact slStep_boundedBy u dt dx B _ ih

/-- With zero velocity the departure point of each grid point is the
point itself, so the semi-Lagrangian step is the identity. -/
theorem slStep_zero (dt dx : ℚ) (hdx : dx ≠ 0) (q : List ℚ) :
    slStep 0 dt dx q = q := by
  have hfun : (fun i : Fin q.length =>
      (1 - Int.fract (slDep 0 dt dx i)) * cyc q ⌊slDep 0 dt dx i⌋ +
        Int.fract (slDep 0 dt dx i) * cyc q (⌊slDep 0 dt dx i⌋ + 1)) =
      (fun i : Fin q.length => q.get i) := by
    funext i
    have hdep : slDep 0 dt dx i = ((i : ℕ) : ℚ) := by
      rw [slDep, zero_mul, sub_zero, mul_div_assoc, div_self hdx, mul_one]
    rw [hdep, Int.fract_natCast, Int.floor_natCast]
    rw [cyc_of_lt i.isLt, List.getD_eq_getElem q 0 i.isLt]
    simp [List.get_eq_getElem]
  rw [slStep, hfun, List.ofFn_get]

/-- On a 4-point grid the explicit step with `K = 1` maps the two-mode
field `[a, b, -a, -b]` to the same shape with `(a, b)` replaced by
`(a - 2b, b + 2a)`. -/
theorem explicitStep_spiral (a b : ℚ) :
    explicitStep 1 [a, b, -a, -b] =
      [a - 2 * b, b + 2 * a, -(a - 2 * b), -(b + 2 * a)] := by
  have c0 : cyc [a, b, -a, -b] 0 = a := rfl
  have c1 : cyc [a, b, -a, -b] 1 = b := rfl
  have c2 : cyc [a, b, -a, -b] 2 = -a := rfl
  have c3 : cyc [a, b, -a, -b] 3 = -b := rfl
  have c4 : cyc [a, b, -a, -b] 4 = a := by norm_num [cyc]
  have cm1 : cyc [a, b, -a, -b] (-1) = -b := rfl
  show List.ofFn _ = _
  rw [List.ofFn_succ, List.ofFn_succ, List.ofFn_succ, List.ofFn_succ,
    List.ofFn_zero]
  norm_num
  rw [c0, c1, c2, c3, c4, cm1]
  refine ⟨by ring, by ring, by ring, by ring⟩

/-- Closed form of the iterated explicit step with `K = 1` on the
initial field `[1, 0, -1, 0]`. -/
theorem stepN_spiral (n : ℕ) :
    stepN 1 n [1, 0, -1, 0] =
      [(ab n).1, (ab n).2, -(ab n).1, -(ab n).2] := by
  induction n with
  | zero =>
    show ([1, 0, -1, 0] : List ℚ) = [1, 0, -1, -0]
    norm_num
  | succ n ih =>
    rw [stepN, ih, explicitStep_spiral]
    rfl

/-- The squared modulus of the spiral grows by a factor 5 each step. -/
theorem ab_sq (n : ℕ) : (ab n).1 ^ 2 + (ab n).2 ^ 2 = 5 ^ n := by
  induction n with
  | zero => norm_num [ab]
  | succ n ih =>
    rw [ab]
    push_cast
    ring_nf
    ring_nf at ih
    nlinarith [ih]

/-- The sum of squares of the iterated field on the unstable mode is
exactly `2 * 5 ^ n`. -/
theorem sumSq_spiral (n : ℕ) :
    sumSq (stepN 1 n [1, 0, -1, 0]) = 2 * 5 ^ n := by
  rw [stepN_spiral]
  have h := ab_sq n
  simp only [sumSq, List.map_cons, List.map_nil, List.sum_cons,
    List.sum_nil]
  nlinarith [h]

/-- With zero velocity the constant `K0` vanishes and the iterated
explicit step is the identity. -/
theorem stepN_zero_vel (dt dx : ℚ) (n : ℕ) (q : List ℚ) :
    stepN (K0 0 dt dx) n q = q := by
  have hK : K0 0 dt dx = 0 := by norm_num [K0]
  rw [hK]
  induction n with
  | zero => rfl
  | succ n ih => rw [stepN, ih, explicitStep_zero]

/-- With zero velocity the iterated semi-Lagrangian step is the
identity. -/
theorem slStepN_zero_vel (dt dx : ℚ) (hdx : dx ≠ 0) (n : ℕ) (q : List ℚ) :
    slStepN 0 dt dx n q = q := by
  induction n with
  | zero => rfl
  | succ n ih => rw [slStepN, ih, slStep_zero dt dx hdx]

/-- Rolling by zero cells is the identity. -/
theorem roll_zero (q : List ℚ) : roll 0 q = q := by
  have hfun : (fun i : Fin q.length => cyc q (((i : ℕ) : ℤ) - 0)) =
      (fun i : Fin q.length => q.get i) := by
    funext i
    rw [sub_zero, cyc_of_lt i.isLt, List.getD_eq_getElem q 0 i.isLt]
    simp [List.get_eq_getElem]
  rw [roll, hfun, List.ofFn_get]

/-- Concrete evaluation: rolling [1, 2, 3] one cell to the right. -/
theorem roll_one_123 : roll 1 [(1 : ℚ), 2, 3] = [3, 1, 2] := by
  have cm1 : cyc [(1 : ℚ), 2, 3] (-1) = 3 := rfl
  have c0 : cyc [(1 : ℚ), 2, 3] 0 = 1 := rfl
  have c1 : cyc [(1 : ℚ), 2, 3] 1 = 2 := rfl
  show List.ofFn _ = _
  rw [List.ofFn_succ, List.ofFn_succ, List.ofFn_succ, List.ofFn_zero]
  norm_num
  rw [cm1, c0, c1]
  exact ⟨rfl, rfl, rfl⟩

/-- The explicit step written out on an arbitrary 4-point field. -/
theorem explicitStep_four (K w x y z : ℚ) :
    explicitStep K [w, x, y, z] =
      [w - K * (x - z), x - K * (y - w), y - K * (z - x),
        z - K * (w - y)] := by
  have c0 : cyc [w, x, y, z] 0 = w := rfl
  have c1 : cyc [w, x, y, z] 1 = x := rfl
  have c2 : cyc [w, x, y, z] 2 = y := rfl
  have c3 : cyc [w, x, y, z] 3 = z := rfl
  have c4 : cyc [w, x, y, z] 4 = w := by norm_num [cyc]
  have cm1 : cyc [w, x, y, z] (-1) = z := rfl
  show List.ofFn _ = _
  rw [List.ofFn_succ, List.ofFn_succ, List.ofFn_succ, List.ofFn_succ,
    List.ofFn_zero]
  norm_num
  rw [c0, c1, c2, c3, c4, cm1]
  exact ⟨rfl, rfl, rfl, rfl⟩

/-- A fixed point of the explicit step is fixed by any number of
steps. -/
theorem stepN_fixed {K : ℚ} {q : List ℚ} (h : explicitStep K q = q)
    (n : ℕ) : stepN K n q = q := by
  induction n with
  | zero => rfl
  | succ n ih => rw [stepN, ih, h]

/-- The alternating 4-point field is a fixed point of the explicit step
at Courant number 2 (the two neighbor rolls coincide on it). -/
theorem explicitStep_alt :
    explicitStep (K0 1 2 1) [1, -1, 1, -1] = [1, -1, 1, -1] := by
  have hK : K0 1 2 1 = 1 := by norm_num [K0]
  rw [hK, explicitStep_four]
  norm_num

/-- Claim C1: for every field array q of length at least 3, with indices
read modulo the length, one explicit finite-difference step with
velocity u, time step dt and spacing dx produces the field whose entry
at every index i equals
q[i] - (u*dt / (2*dx)) * (q[i+1] - q[i-1]). -/
theorem claim_C1 (u dt dx : ℚ) (q : List ℚ) (h : 3 ≤ q.length) (i : ℤ) :
    cyc (explicitStep (K0 u dt dx) q) i =
      cyc q i - u * dt / (2 * dx) * (cyc q (i + 1) - cyc q (i - 1)) := by
  have hq : q ≠ [] := by
    intro hnil
    rw [hnil] at h
    simp at h
  rw [cyc_explicitStep hq, K0]

/-- Witness for C1 at the concrete field [1, 2, 3], unit parameters and
index 5. -/
theorem claim_C1_witness :
    3 ≤ ([1, 2, 3] : List ℚ).length ∧
      cyc (explicitStep (K0 1 1 1) [1, 2, 3]) 5 =
        cyc [1, 2, 3] 5 -
          1 * 1 / (2 * 1) * (cyc [1, 2, 3] 6 - cyc [1, 2, 3] 4) :=
  ⟨by decide, claim_C1 1 1 1 [1, 2, 3] (by decide) 5⟩

/-- Counterexample to C2 as stated: with T = 1 and dt = 2/3 the code
derives the step count int(1/(2/3)) = 1 while ceil(1/(2/3)) = 2, so the
driver runs the loop once, not twice. -/
theorem claim_C2_counterexample :
    nsteps 1 (2 / 3) = 1 ∧ ⌈(1 : ℚ) / (2 / 3)⌉ = 2 ∧ (1 : ℤ) ≠ 2 ∧
      driver 1 (2 / 3) 1 1 [1, 2, 3] =
        advRun 1 (2 / 3) 1 (initState [1, 2, 3]) 1 := by
  have h1 : nsteps 1 (2 / 3) = 1 := by norm_num [nsteps, pyInt]
  refine ⟨h1, by rw [Int.ceil_eq_iff]; norm_num, by decide, ?_⟩
  rw [driver, h1]
  rfl

/-- Claim C2 (amended): for T at least 0 and dt positive, the driver
applies the explicit step exactly int(T/dt) times, which is the floor
(truncation toward zero) of T/dt, not its ceiling; the two agree only
when dt divides T. -/
theorem claim_C2 (u dx T dt : ℚ) (q : List ℚ) (hT : 0 ≤ T) (hdt : 0 < dt) :
    nsteps T dt = ⌊T / dt⌋ ∧
      (driver u dt dx T q).q0 = stepN (K0 u dt dx) (⌊T / dt⌋).toNat q := by
  have hx : 0 ≤ T / dt := div_nonneg hT hdt.le
  have h1 : nsteps T dt = ⌊T / dt⌋ := by rw [nsteps, pyInt, if_pos hx]
  refine ⟨h1, ?_⟩
  rw [driver, h1, advRun_q0]

/-- Witness for the amended C2 at T = 1, dt = 2/3. -/
theorem claim_C2_witness :
    nsteps 1 (2 / 3) = ⌊(1 : ℚ) / (2 / 3)⌋ ∧
      (driver 1 (2 / 3) 1 1 [1, 2, 3]).q0 =
        stepN (K0 1 (2 / 3) 1) (⌊(1 : ℚ) / (2 / 3)⌋).toNat [1, 2, 3] :=
  claim_C2 1 1 1 (2 / 3) [1, 2, 3] (by norm_num) (by norm_num)

/-- Counterexample to C3 as stated: with u = 1, dx = 1, dt = T = 9/10
the loop runs once and the code rolls the initial array by
int(9/10) = 0 cells, whereas the nearest integer to u*T/dx = 9/10 is 1,
and the two rotations of [1, 2, 3] differ. -/
theorem claim_C3_counterexample :
    (driver 1 (9 / 10) 1 (9 / 10) [1, 2, 3]).qtrue = [1, 2, 3] ∧
      roll (round ((1 : ℚ) * (9 / 10) / 1)) [1, 2, 3] = [3, 1, 2] ∧
      ([1, 2, 3] : List ℚ) ≠ [3, 1, 2] := by
  have hn : nsteps (9 / 10) (9 / 10) = 1 := by norm_num [nsteps, pyInt]
  refine ⟨?_, ?_, by norm_num⟩
  · have hq : (driver 1 (9 / 10) 1 (9 / 10) [1, 2, 3]).qtrue =
        roll (pyInt (((1 : ℕ) : ℚ) * (9 / 10) * 1)) [1, 2, 3] := by
      rw [driver, hn]
      exact advRun_qtrue 1 (9 / 10) 1 [1, 2, 3] le_rfl
    have hz : pyInt (((1 : ℕ) : ℚ) * (9 / 10) * 1) = 0 := by
      norm_num [pyInt]
    rw [hq, hz, roll_zero]
  · have hr : round ((1 : ℚ) * (9 / 10) / 1) = 1 := by norm_num [round_eq]
    rw [hr, roll_one_123]

/-- Claim C3 (amended): after n of the loop iterations (n at least 1)
the reference field is the initial array index-rotated by
int(n*dt*u) grid cells: the shift is the truncation toward zero of the
displacement u*T (the code does not divide by dx; the notebook grid has
dx = 1), not the nearest integer. -/
theorem claim_C3 (u dt dx : ℚ) (q : List ℚ) (n : ℕ) (hn : 1 ≤ n) :
    (advRun u dt dx (initState q) n).qtrue =
      roll (pyInt ((n : ℚ) * dt * u)) q :=
  advRun_qtrue u dt dx q hn

/-- Witness for the amended C3 after one iteration with dt = 9/10. -/
theorem claim_C3_witness :
    (advRun 1 (9 / 10) 1 (initState [1, 2, 3]) 1).qtrue =
      roll (pyInt (((1 : ℕ) : ℚ) * (9 / 10) * 1)) [1, 2, 3] :=
  claim_C3 1 (9 / 10) 1 [1, 2, 3] 1 (by decide)

/-- Counterexample to C4 as stated: dt = 2 exceeds dx/u = 1, yet the
explicit scheme does not diverge on the alternating field
[1, -1, 1, -1]: that field is a fixed point of the explicit step (its
two neighbor rolls coincide), so it stays bounded forever. -/
theorem claim_C4_counterexample :
    (1 : ℚ) / 1 < 2 ∧
      explicitStep (K0 1 2 1) [1, -1, 1, -1] = [1, -1, 1, -1] ∧
      stepN (K0 1 2 1) 10 [1, -1, 1, -1] = [1, -1, 1, -1] :=
  ⟨by norm_num, explicitStep_alt, stepN_fixed explicitStep_alt 10⟩

/-- Claim C4 (amended): the semi-Lagrangian scheme never diverges in
exact arithmetic: for every positive dx, every velocity and every time
step (in particular 0.35, 0.85, 1.55 and 5.55 seconds), any uniform
bound on the initial field is kept at every step; the explicit scheme
with dt exceeding dx/u diverges for some initial fields, not all: on
the 4-point field [1, 0, -1, 0] with u = 1, dt = 2, dx = 1 the sum of
squares of the field eventually exceeds any bound. -/
theorem claim_C4 :
    (∀ (u dt dx B : ℚ) (q : List ℚ) (n : ℕ), 0 < dx → boundedBy B q →
        boundedBy B (slStepN u dt dx n q)) ∧
      ∀ B : ℚ, ∃ n : ℕ, B < sumSq (stepN (K0 1 2 1) n [1, 0, -1, 0]) := by
  constructor
  · intro u dt dx B q n _ hB
    exact slStepN_boundedBy u dt dx B q n hB
  · intro B
    have hK : K0 1 2 1 = 1 := by norm_num [K0]
    obtain ⟨n, hn⟩ := exists_nat_gt B
    refine ⟨n, ?_⟩
    rw [hK, sumSq_spiral]
    have h5n : n < 5 ^ n := Nat.lt_pow_self (by norm_num) n
    have h5 : (n : ℚ) < (5 : ℚ) ^ n := by exact_mod_cast h5n
    have h5pos : (0 : ℚ) < (5 : ℚ) ^ n := by positivity
    linarith

/-- Witness for the amended C4: a concrete bounded semi-Lagrangian run
at dt = 0.35, and a concrete bound exceeded by the explicit scheme. -/
theorem claim_C4_witness :
    boundedBy 1 (slStepN 1 (35 / 100) 1 2 [1, 0]) ∧
      ∃ n : ℕ, (100 : ℚ) < sumSq (stepN (K0 1 2 1) n [1, 0, -1, 0]) :=
  ⟨claim_C4.1 1 (35 / 100) 1 1 [1, 0] 2 (by norm_num)
      (by norm_num [boundedBy]),
    claim_C4.2 100⟩

/-- Counterexample to C5 as stated: on the 2-point grid [5, 7] the
driver neither raises an error nor refuses to step: the integration
cell runs its nsteps = 4 iterations and returns a field (unchanged,
because on grids of fewer than 3 points both neighbor rolls coincide). -/
theorem claim_C5_counterexample :
    nsteps 2 (1 / 2) = 4 ∧ (driver 1 (1 / 2) 1 2 [5, 7]).q0 = [5, 7] := by
  refine ⟨by norm_num [nsteps, pyInt], ?_⟩
  rw [driver, advRun_q0]
  exact stepN_fixed (explicitStep_small (by decide) (K0 1 (1 / 2) 1)) _

/-- Claim C5 (amended): the notebook performs no grid-size validation
and defines no InvalidGridSize error: a grid with fewer than 3 points
is integrated without any error, and because the two neighbor rolls
coincide there, every explicit step is the identity, so the driver
returns the initial field. -/
theorem claim_C5 (u dt dx T : ℚ) (q : List ℚ) (h : q.length ≤ 2) :
    (driver u dt dx T q).q0 = q := by
  rw [driver, advRun_q0]
  generalize (nsteps T dt).toNat = n
  induction n with
  | zero => rfl
  | succ n ih => rw [stepN, ih, explicitStep_small h]

/-- Witness for the amended C5 on a concrete 2-point grid. -/
theorem claim_C5_witness : (driver 1 (1 / 3) 1 1 [2, 4]).q0 = [2, 4] :=
  claim_C5 1 (1 / 3) 1 1 [2, 4] (by decide)

/-- Claim C6: the integration loop leaves the caller-supplied
initial-condition array unchanged: after any number of iterations, and
after the full driver run, the qinit binding still holds the initial
field (the loop only rebinds q0, q1 and qtrue; every numpy operation
used allocates a fresh array). -/
theorem claim_C6 (u dt dx T : ℚ) (q : List ℚ) :
    (∀ n : ℕ, (advRun u dt dx (initState q) n).qinit = q) ∧
      (driver u dt dx T q).qinit = q := by
  refine ⟨fun n => ?_, ?_⟩
  · rw [advRun_qinit]
    rfl
  · rw [driver, advRun_qinit]
    rfl

/-- Claim C7: rotating the initial field by k grid cells and then
running n explicit steps yields the same field as running the steps
first and rotating the output by k cells: the scheme commutes with
periodic index rotation. -/
theorem claim_C7 (u dt dx : ℚ) (k : ℤ) (n : ℕ) (q : List ℚ) :
    stepN (K0 u dt dx) n (roll k q) = roll k (stepN (K0 u dt dx) n q) :=
  stepN_roll (K0 u dt dx) k n q

/-- Claim C8: with zero velocity both schemes are the identity after
any number of steps (the explicit stencil coefficient K0 vanishes, and
the semi-Lagrangian departure point of each grid cell is the cell
itself, requiring only nonzero dx). -/
theorem claim_C8 (u dt dx : ℚ) (q : List ℚ) (n : ℕ) (hu : u = 0)
    (hdx : dx ≠ 0) :
    stepN (K0 u dt dx) n q = q ∧ slStepN u dt dx n q = q := by
  subst hu
  exact ⟨stepN_zero_vel dt dx n q, slStepN_zero_vel dt dx hdx n q⟩

/-- Witness for C8 with three steps on the field [1, 2]. -/
theorem claim_C8_witness :
    stepN (K0 0 1 1) 3 [1, 2] = [1, 2] ∧ slStepN 0 1 1 3 [1, 2] = [1, 2] :=
  claim_C8 0 1 1 [1, 2] 3 rfl one_ne_zero

/-- Claim C9: on every valid grid one step of either scheme returns an
array of the same length as its input. -/
theorem claim_C9 (u dt dx K : ℚ) (q : List ℚ) (h : 3 ≤ q.length) :
    (explicitStep K q).length = q.length ∧
      (slStep u dt dx q).length = q.length :=
  ⟨length_explicitStep K q, length_slStep u dt dx q⟩

/-- Witness for C9 on the concrete grid [1, 2, 3]. -/
theorem claim_C9_witness :
    (explicitStep 1 [1, 2, 3]).length = ([1, 2, 3] : List ℚ).length ∧
      (slStep 1 1 1 [1, 2, 3]).length = ([1, 2, 3] : List ℚ).length :=
  claim_C9 1 1 1 1 [1, 2, 3] (by decide)

/-- Claim C10: in exact arithmetic the explicit step conserves the sum
of the field, because the periodic centered differences telescope to
zero, and hence the driver preserves the total over any number of
steps. -/
theorem claim_C10 (u dt dx : ℚ) (q : List ℚ) (n : ℕ) :
    (explicitStep (K0 u dt dx) q).sum = q.sum ∧
      (stepN (K0 u dt dx) n q).sum = q.sum :=
  ⟨sum_explicitStep (K0 u dt dx) q, sum_stepN (K0 u dt dx) n q⟩

end Advection
